import Mathlib

/-
Verification development for the branch-report tool (src/main.py).

Strings are modelled as `List Char`; Python `str` methods used by the code
(`rstrip`, `lstrip`, `strip`, truthiness of a stripped string) are embedded
below.  `strip_ansi_len` (main.py:114-121) removes every occurrence of the
regular expression  ESC '[' [0-9;]* 'm'  (leftmost, non-overlapping, no
rescanning of the produced text) and takes the length; here the removal is
implemented as a left-to-right scanner whose state records how much of a
potential escape sequence has been read, which is exactly the behaviour of
`re.sub` for this regular expression.
-/

/-- Python `str.isspace` characters (the set used by `str.strip`, `rstrip`
and `lstrip` with no arguments), by code point: ASCII whitespace 9-13 and
32, the separators 28-31, NEL 133, and the Unicode space characters. -/
def pySpace (c : Char) : Bool :=
  (decide (9 ≤ c.toNat) && decide (c.toNat ≤ 13)) || c.toNat == 32 ||
  (decide (28 ≤ c.toNat) && decide (c.toNat ≤ 31)) ||
  c.toNat == 133 || c.toNat == 160 || c.toNat == 0x1680 ||
  (decide (0x2000 ≤ c.toNat) && decide (c.toNat ≤ 0x200a)) ||
  c.toNat == 0x2028 || c.toNat == 0x2029 || c.toNat == 0x202f ||
  c.toNat == 0x205f || c.toNat == 0x3000

/-- Python `s.lstrip()`. -/
def pyLstrip (s : List Char) : List Char := s.dropWhile pySpace

/-- Python `s.rstrip()`. -/
def pyRstrip (s : List Char) : List Char := (s.reverse.dropWhile pySpace).reverse

/-- Python `s.strip()`. -/
def pyStrip (s : List Char) : List Char := pyRstrip (pyLstrip s)

/-- Characters allowed in the parameter part `[0-9;]*` of the ANSI regex of
`strip_ansi_len` (main.py:120). -/
def ansiParam (c : Char) : Bool :=
  (decide (48 ≤ c.toNat) && decide (c.toNat ≤ 57)) || c.toNat == 59

/-- Scanner state for removing ANSI escapes: either in plain text, just after
an ESC, or after "ESC[" with the parameter characters read so far. -/
inductive AnsiSt : Type where
  | norm : AnsiSt
  | esc : AnsiSt
  | par : List Char → AnsiSt
deriving DecidableEq

/-- Left-to-right removal of every match of  ESC '[' [0-9;]* 'm' , as
performed by `re.sub(r"\x1b\[[0-9;]*m", "", s)` in main.py:120-121.  A
partial match that fails is flushed verbatim and scanning resumes at the
character that broke it. -/
def ansiScan : AnsiSt → List Char → List Char
  | .norm, [] => []
  | .norm, c :: rest =>
      if c = '\x1b' then ansiScan .esc rest else c :: ansiScan .norm rest
  | .esc, [] => ['\x1b']
  | .esc, c :: rest =>
      if c = '[' then ansiScan (.par []) rest
      else '\x1b' :: (if c = '\x1b' then ansiScan .esc rest else c :: ansiScan .norm rest)
  | .par seen, [] => '\x1b' :: '[' :: seen
  | .par seen, c :: rest =>
      if c = 'm' then ansiScan .norm rest
      else if ansiParam c then ansiScan (.par (seen ++ [c])) rest
      else '\x1b' :: '[' :: (seen ++ (if c = '\x1b' then ansiScan .esc rest else c :: ansiScan .norm rest))

/-- The string with its ANSI style sequences removed. -/
def stripAnsi (s : List Char) : List Char := ansiScan .norm s

/-- Visible length: `strip_ansi_len` of main.py:114-121. -/
def strip_ansi_len (s : List Char) : Nat := (stripAnsi s).length

/-- One iteration of the `for piece in pieces` loop of `wrap_pieces`
(main.py:142-160), acting on the state (lines so far, current accumulator).
The width is an `Int` because Python allows zero and negative widths. -/
def wrapStep (width : Int) (fpfx npfx : List Char)
    (st : List (List Char) × List Char) (piece : List Char) :
    List (List Char) × List Char :=
  if piece = [] then st
  else
    let lines := st.1
    let cur := st.2
    let proposed := cur ++ piece
    if (strip_ansi_len proposed : Int) ≤ width ∨
        strip_ansi_len cur ≤ strip_ansi_len fpfx then
      (lines, proposed)
    else
      let lines1 := lines ++ [pyRstrip cur]
      let cur1 := npfx ++ pyLstrip piece
      if width < (strip_ansi_len cur1 : Int) then
        (lines1 ++ [pyRstrip cur1], npfx)
      else
        (lines1, cur1)

/-- The final `if cur.strip(): lines.append(cur.rstrip())` of `wrap_pieces`
(main.py:162-163). -/
def wrapFinish (st : List (List Char) × List Char) : List (List Char) :=
  if pyStrip st.2 ≠ [] then st.1 ++ [pyRstrip st.2] else st.1

/-- The piece-aware wrapper `wrap_pieces` of main.py:124-165.  `fpfx` and
`npfx` are the `first_prefix` and `next_prefix` keyword arguments (both
default to the empty string in the source). -/
def wrap_pieces (pieces : List (List Char)) (width : Int)
    (fpfx npfx : List Char) : List (List Char) :=
  wrapFinish (pieces.foldl (wrapStep width fpfx npfx) ([], fpfx))

/-- Everything after the first '/' of a name, or `none` when the name has no
'/': models `r.split("/", 1)[1]` guarded by `"/" in r` (main.py:204). -/
def afterFirstSlash : List Char → Option (List Char)
  | [] => none
  | c :: rest => if c = '/' then some rest else afterFirstSlash rest

/-- The set `{r.split("/", 1)[1] for r in remote_shorts if "/" in r}` of
main.py:204, as a list (only membership is ever used). -/
def remoteLeafNames (remote_shorts : List (List Char)) : List (List Char) :=
  remote_shorts.filterMap afterFirstSlash

/-- The classifier `local_branches_not_on_any_remote` of main.py:198-205. -/
def local_branches_not_on_any_remote
    (local_shorts remote_shorts : List (List Char)) : List (List Char) :=
  local_shorts.filter (fun l => decide (l ∉ remoteLeafNames remote_shorts))

/-- A Python `datetime` as used by `format_date` (main.py:168-181): calendar
fields plus the UTC offset in seconds (`None` for a naive datetime). -/
structure PyDateTime : Type where
  year : Nat
  month : Nat
  day : Nat
  hour : Nat
  minute : Nat
  second : Nat
  offsetSeconds : Option Int
deriving DecidableEq

/-- C-locale `%b`: the capitalized three-letter month abbreviation; the
source applies `.capitalize()`, which leaves these strings unchanged. -/
def monthAbbrev : Nat → String
  | 1 => "Jan" | 2 => "Feb" | 3 => "Mar" | 4 => "Apr" | 5 => "May" | 6 => "Jun"
  | 7 => "Jul" | 8 => "Aug" | 9 => "Sep" | 10 => "Oct" | 11 => "Nov" | 12 => "Dec"
  | _ => ""

/-- Decimal digits of a natural number, with fuel for structural recursion. -/
def natDigitsAux : Nat → Nat → List Char
  | 0, _ => []
  | fuel + 1, n =>
      if n < 10 then [Char.ofNat (48 + n)]
      else natDigitsAux fuel (n / 10) ++ [Char.ofNat (48 + n % 10)]

/-- Decimal rendering of a natural number, as Python `f"{n}"` for `n ≥ 0`. -/
def natStr (n : Nat) : String := ⟨natDigitsAux (n + 1) n⟩

/-- Python `f"{n:02d}"` for the two-digit time fields. -/
def pad2 (n : Nat) : String := if n < 10 then "0" ++ natStr n else natStr n

/-- The hour on the 12-hour clock, as rendered by `%I`. -/
def hour12 (h : Nat) : Nat := if h % 12 = 0 then 12 else h % 12

/-- Truncation toward zero of `secs / b`, exactly `int(secs / b)` in Python
for an integer number of seconds (main.py:177). -/
def truncDivNat (secs : Int) (b : Nat) : Int :=
  if 0 ≤ secs then Int.ofNat (secs.toNat / b) else -Int.ofNat ((-secs).toNat / b)

/-- Python `f"{h:+d}"`: the decimal rendering with an explicit sign. -/
def signedIntStr (h : Int) : String :=
  if 0 ≤ h then "+" ++ natStr h.toNat else "-" ++ natStr (-h).toNat

/-- The lookup `{1: 'st', 2: 'nd', 3: 'rd'}.get(day % 10, 'th')` of
main.py:171. -/
def ordinalDictGet : Nat → String
  | 1 => "st" | 2 => "nd" | 3 => "rd" | _ => "th"

/-- The full ordinal-suffix expression of main.py:171. -/
def ordinalFor (day : Nat) : String :=
  if 11 ≤ day ∧ day ≤ 13 then "th" else ordinalDictGet (day % 10)

/-- The timezone rendering of main.py:175-180. -/
def tzString : Option Int → String
  | some secs => "GMT" ++ signedIntStr (truncDivNat secs 3600)
  | none => "GMT"

/-- Python `dt.strftime('%I:%M:%S %p')` (main.py:174): 12-hour clock with a
leading zero, and AM for hours 0-11, PM for hours 12-23. -/
def time12String (dt : PyDateTime) : String :=
  pad2 (hour12 dt.hour) ++ ":" ++ pad2 dt.minute ++ ":" ++ pad2 dt.second ++
    " " ++ (if dt.hour < 12 then "AM" else "PM")

/-- The readable-mode date formatter `format_date` of main.py:168-181. -/
def format_date (dt : PyDateTime) : String :=
  monthAbbrev dt.month ++ "." ++ " " ++ natStr dt.day ++ ordinalFor dt.day ++
    ", " ++ natStr dt.year ++ ", " ++ time12String dt ++ ", " ++
    tzString dt.offsetSeconds

/-- The record built once per branch (main.py:33-41); `commit_date` is the
commit timestamp, whose only used structure is its linear order. -/
structure BranchInfo : Type where
  kind : String
  display_name : String
  refname : String
  commit_hash : String
  committer : String
  commit_date : Int
  subject : String
deriving DecidableEq

/-- Python `infos.sort(key=lambda b: b.commit_date, reverse=True)`
(main.py:251-252): a stable descending sort by timestamp. -/
def sortByDateDesc (l : List BranchInfo) : List BranchInfo :=
  l.mergeSort (fun a b => decide (b.commit_date ≤ a.commit_date))

/-- The data returned by a successful `get_latest_commit` (main.py:89-100);
the git subprocess itself is the external adapter. -/
structure CommitData : Type where
  hash : String
  committer : String
  date : Int
  subject : String
deriving DecidableEq

/-- The record constructor `build_branch_info` (main.py:193-195), with the
adapter call modelled as an `Option`-returning oracle: `none` is the
`RuntimeError` path of `get_latest_commit`. -/
def build_branch_info (query : String → Option CommitData)
    (kind refname display : String) : Option BranchInfo :=
  match query refname with
  | some c => some ⟨kind, display, refname, c.hash, c.committer, c.date, c.subject⟩
  | none => none

/-- The collection loops of `main` (main.py:230-235 and 241-248): for each
ref try to build its record, and on failure `continue` with the next ref. -/
def collectBranchInfos (query : String → Option CommitData) (kind : String)
    (refs : List (String × String)) : List BranchInfo :=
  refs.filterMap (fun pr => build_branch_info query kind pr.1 pr.2)

/-- The ordinal-suffix rule in the spec's own words: days 11-13 take "th",
otherwise the suffix is chosen by the last digit. -/
def specOrdinalSuffix (day : Nat) : String :=
  if 11 ≤ day ∧ day ≤ 13 then "th"
  else if day % 10 = 1 then "st"
  else if day % 10 = 2 then "nd"
  else if day % 10 = 3 then "rd"
  else "th"

/-- The spec's description of a remote name's leaf component: the substring
after the first '/' separator. -/
def specLeafAfterSlash (r : List Char) : List Char :=
  (r.dropWhile (fun c => !(c == '/'))).drop 1

/-- The string `a` occurs contiguously (unsplit) inside the string `b`. -/
def containedIn (a b : List Char) : Prop := ∃ x y, b = x ++ a ++ y

/-- The subsequence of non-whitespace characters of a string. -/
def nonWs (s : List Char) : List Char := s.filter (fun c => !pySpace c)

/-- The shapes an emitted line can take: visible length within the width
budget, or ending in a single token placed by the progress rule on top of an
accumulator of visible length at most the first prefix's, or a forced line
of the continuation prefix plus one left-trimmed token, or a bare trimmed
prefix. -/
def lineOK (width : Int) (fpfx npfx : List Char) (ps0 : List (List Char))
    (l : List Char) : Prop :=
  (strip_ansi_len l : Int) ≤ width
  ∨ (∃ c0 p, p ∈ ps0 ∧ strip_ansi_len c0 ≤ strip_ansi_len fpfx ∧
      l = pyRstrip (c0 ++ p))
  ∨ (∃ p ∈ ps0, l = pyRstrip (npfx ++ pyLstrip p))
  ∨ l = pyRstrip fpfx ∨ l = pyRstrip npfx

/-- The shapes the accumulator can take during the scan. -/
def curOK (width : Int) (fpfx npfx : List Char) (ps0 : List (List Char))
    (cur : List Char) : Prop :=
  (strip_ansi_len cur : Int) ≤ width ∨ cur = fpfx ∨ cur = npfx
  ∨ ∃ c0 p, p ∈ ps0 ∧ strip_ansi_len c0 ≤ strip_ansi_len fpfx ∧ cur = c0 ++ p

/-- The degradation shape of `wrap_pieces` at non-positive widths with
empty prefixes: the first token of each pair is accepted by the progress
rule and closed right-trimmed, the second is forced onto its own line after
left-trimming. -/
def altLines : List (List Char) → List (List Char)
  | [] => []
  | [t] => [pyRstrip t]
  | t :: u :: rest => pyRstrip t :: pyRstrip (pyLstrip u) :: altLines rest

lemma afterFirstSlash_eq_some_iff (r l : List Char) :
    afterFirstSlash r = some l ↔ '/' ∈ r ∧ specLeafAfterSlash r = l := by
  induction r with
  | nil => simp [afterFirstSlash]
  | cons c rest ih =>
      by_cases hc : c = '/'
      · subst hc
        simp [afterFirstSlash, specLeafAfterSlash, List.dropWhile_cons]
      · simp only [afterFirstSlash, if_neg hc, ih, specLeafAfterSlash,
          List.dropWhile_cons, List.mem_cons]
        have hb : (!(c == '/')) = true := by simp [hc]
        rw [if_pos hb]
        constructor
        · rintro ⟨hm, he⟩; exact ⟨Or.inr hm, he⟩
        · rintro ⟨hm, he⟩
          rcases hm with hm | hm
          · exact absurd hm.symm hc
          · exact ⟨hm, he⟩

/-- Claim C5: the classifier returns exactly those local names that are
absent from the set of leaf components (substring after the first '/') of
the remote names; in particular remotes {origin/main, origin/dev,
upstream/main} with locals {main, dev, experiment} yield {experiment}, and
an empty remote set yields every local name. -/
theorem claim_C5 :
    (∀ (locals remotes : List (List Char)) (l : List Char),
      l ∈ local_branches_not_on_any_remote locals remotes ↔
        l ∈ locals ∧ ¬ ∃ r ∈ remotes, '/' ∈ r ∧ specLeafAfterSlash r = l)
    ∧ local_branches_not_on_any_remote
        ["main".data, "dev".data, "experiment".data]
        ["origin/main".data, "origin/dev".data, "upstream/main".data] =
        ["experiment".data]
    ∧ local_branches_not_on_any_remote ["main".data] [] = ["main".data] := by
  refine ⟨?_, by decide, by decide⟩
  intro locals remotes l
  simp only [local_branches_not_on_any_remote, List.mem_filter,
    decide_eq_true_eq, remoteLeafNames, List.mem_filterMap]
  constructor
  · rintro ⟨hl, hno⟩
    refine ⟨hl, ?_⟩
    rintro ⟨r, hr, hslash, hleaf⟩
    exact hno ⟨r, hr, (afterFirstSlash_eq_some_iff r l).mpr ⟨hslash, hleaf⟩⟩
  · rintro ⟨hl, hno⟩
    refine ⟨hl, ?_⟩
    rintro ⟨r, hr, hsome⟩
    rcases (afterFirstSlash_eq_some_iff r l).mp hsome with ⟨hslash, hleaf⟩
    exact hno ⟨r, hr, hslash, hleaf⟩

lemma ordinalFor_eq_spec (d : Nat) : ordinalFor d = specOrdinalSuffix d := by
  unfold ordinalFor specOrdinalSuffix
  by_cases h : 11 ≤ d ∧ d ≤ 13
  · rw [if_pos h, if_pos h]
  · rw [if_neg h, if_neg h]
    have h10 : d % 10 < 10 := Nat.mod_lt _ (by norm_num)
    generalize d % 10 = m at h10 ⊢
    interval_cases m <;> decide

/-- Claim C6: readable-mode formatting follows the day-ordinal rule (11-13
take "th", otherwise by last digit 1/2/3 → "st"/"nd"/"rd", else "th"),
renders the timezone as "GMT" plus the sign-carrying hour offset truncated
toward zero from offset seconds / 3600, renders bare "GMT" for an instant
without offset, and maps 2024-01-01T13:05:09 at UTC offset 0 to
"Jan. 1st, 2024, 01:05:09 PM, GMT+0". -/
theorem claim_C6 :
    (∀ dt : PyDateTime,
      format_date dt =
        monthAbbrev dt.month ++ "." ++ " " ++ natStr dt.day ++
          specOrdinalSuffix dt.day ++ ", " ++ natStr dt.year ++ ", " ++
          time12String dt ++ ", " ++ tzString dt.offsetSeconds)
    ∧ (∀ secs : Int, tzString (some secs) = "GMT" ++ signedIntStr (truncDivNat secs 3600))
    ∧ tzString none = "GMT"
    ∧ format_date ⟨2024, 1, 1, 13, 5, 9, some 0⟩ =
        "Jan. 1st, 2024, 01:05:09 PM, GMT+0" := by
  refine ⟨?_, fun _ => rfl, rfl, by decide⟩
  intro dt
  simp only [format_date, ordinalFor_eq_spec]

lemma pairwiseOfMem {α : Type} {R : α → α → Prop} :
    ∀ l : List α, (∀ x ∈ l, ∀ y ∈ l, R x y) → l.Pairwise R := by
  intro l h
  induction l with
  | nil => exact List.Pairwise.nil
  | cons a tl ih =>
      exact List.Pairwise.cons (fun y hy => h a (by simp) y (by simp [hy]))
        (ih fun x hx y hy => h x (by simp [hx]) y (by simp [hy]))

/-- Claim C7: the rendered order is sorted by commit timestamp descending
and the sort is stable: records with equal timestamps keep their original
relative order (the sublist at any fixed timestamp is unchanged). -/
theorem claim_C7 (l : List BranchInfo) :
    (sortByDateDesc l).Pairwise (fun a b => b.commit_date ≤ a.commit_date)
    ∧ ∀ t : Int,
        (sortByDateDesc l).filter (fun b => decide (b.commit_date = t)) =
          l.filter (fun b => decide (b.commit_date = t)) := by
  have htrans : ∀ a b c : BranchInfo,
      decide (b.commit_date ≤ a.commit_date) = true →
      decide (c.commit_date ≤ b.commit_date) = true →
      decide (c.commit_date ≤ a.commit_date) = true := by
    intro a b c h1 h2
    simp only [decide_eq_true_eq] at *
    exact le_trans h2 h1
  have htotal : ∀ a b : BranchInfo,
      (decide (b.commit_date ≤ a.commit_date) ||
        decide (a.commit_date ≤ b.commit_date)) = true := by
    intro a b
    rcases Int.le_total b.commit_date a.commit_date with h | h <;> simp [h]
  constructor
  · exact (List.sorted_mergeSort htrans htotal l).imp (by
      intro a b h; exact of_decide_eq_true h)
  · intro t
    set p : BranchInfo → Bool := fun b => decide (b.commit_date = t) with hp
    have hmemdate : ∀ b ∈ l.filter p, b.commit_date = t := by
      intro b hb
      have := (List.mem_filter.mp hb).2
      simpa [hp] using this
    have hpw : (l.filter p).Pairwise
        (fun a b => decide (b.commit_date ≤ a.commit_date) = true) := by
      refine pairwiseOfMem _ ?_
      intro x hx y hy
      simp only [decide_eq_true_eq, hmemdate x hx, hmemdate y hy, le_refl]
    have hsub : (l.filter p).Sublist (sortByDateDesc l) :=
      List.sublist_mergeSort htrans htotal hpw (List.filter_sublist l)
    have hidem : (l.filter p).filter p = l.filter p :=
      List.filter_eq_self.mpr fun a ha => (List.mem_filter.mp ha).2
    have hsub2 : (l.filter p).Sublist ((sortByDateDesc l).filter p) := by
      have := List.Sublist.filter p hsub
      rwa [hidem] at this
    have hperm : ((sortByDateDesc l).filter p).Perm (l.filter p) :=
      List.Perm.filter p (List.mergeSort_perm l _)
    exact (List.Sublist.eq_of_length hsub2 hperm.length_eq.symm).symm

lemma filterMap_filter_isSome {α β : Type} (f : α → Option β) (g : α → Bool)
    (hg : ∀ a, g a = (f a).isSome) :
    ∀ l : List α, (l.filter g).filterMap f = l.filterMap f := by
  intro l
  induction l with
  | nil => rfl
  | cons a tl ih =>
      rw [List.filter_cons]
      cases hfa : f a with
      | none =>
          have hga : g a = false := by rw [hg, hfa]; rfl
          simp [hga, List.filterMap_cons, hfa, ih]
      | some b =>
          have hga : g a = true := by rw [hg, hfa]; rfl
          simp [hga, List.filterMap_cons, hfa, ih]

/-- Claim C8: a failed tip-commit query never aborts the run: the failing
ref is omitted and every successfully queried ref contributes exactly its
queried record — the collected list is the same as collecting over the
successful refs only, and every record comes whole from one successful
query. -/
theorem claim_C8 (query : String → Option CommitData) (kind : String)
    (refs : List (String × String)) :
    (∀ b : BranchInfo,
      b ∈ collectBranchInfos query kind refs ↔
        ∃ fr ds c, (fr, ds) ∈ refs ∧ query fr = some c ∧
          b = ⟨kind, ds, fr, c.hash, c.committer, c.date, c.subject⟩)
    ∧ collectBranchInfos query kind refs =
        collectBranchInfos query kind
          (refs.filter (fun pr => (query pr.1).isSome)) := by
  constructor
  · intro b
    simp only [collectBranchInfos, List.mem_filterMap]
    constructor
    · rintro ⟨⟨fr, ds⟩, hmem, hf⟩
      cases hq : query fr with
      | none => simp [build_branch_info, hq] at hf
      | some c =>
          refine ⟨fr, ds, c, hmem, hq, ?_⟩
          simp [build_branch_info, hq] at hf
          exact hf.symm
    · rintro ⟨fr, ds, c, hmem, hq, rfl⟩
      exact ⟨(fr, ds), hmem, by simp [build_branch_info, hq]⟩
  · have hg : ∀ pr : String × String,
        ((query pr.1).isSome) = (build_branch_info query kind pr.1 pr.2).isSome := by
      intro pr
      cases hq : query pr.1 <;> simp [build_branch_info, hq]
    exact (filterMap_filter_isSome _ _ hg refs).symm

/-- Claim C9: wrapping the tokens ["AAA", "  ", "BBB"] at width 10 with
first prefix "  " yields exactly the single line "  AAA  BBB". -/
theorem claim_C9 :
    wrap_pieces ["AAA".data, "  ".data, "BBB".data] 10 "  ".data [] =
      ["  AAA  BBB".data] := by decide

lemma pyRstrip_eq_nil_iff (s : List Char) :
    pyRstrip s = [] ↔ ∀ c ∈ s, pySpace c := by
  simp [pyRstrip, List.dropWhile_eq_nil_iff]

lemma pyLstrip_allspace_iff (s : List Char) :
    (∀ c ∈ pyLstrip s, pySpace c) ↔ ∀ c ∈ s, pySpace c := by
  constructor
  · intro h c hc
    have hsplit := List.takeWhile_append_dropWhile pySpace s
    rw [← hsplit] at hc
    rcases List.mem_append.mp hc with hc | hc
    · exact List.mem_takeWhile_imp hc
    · exact h c hc
  · intro h c hc
    exact h c ((List.dropWhile_sublist _).mem hc)

lemma pyStrip_eq_nil_iff (s : List Char) :
    pyStrip s = [] ↔ ∀ c ∈ s, pySpace c := by
  rw [pyStrip, pyRstrip_eq_nil_iff, pyLstrip_allspace_iff]

lemma foldl_wrapStep_empty_pieces (width : Int) (fpfx npfx : List Char) :
    ∀ (ps : List (List Char)) (st : List (List Char) × List Char),
      (∀ p ∈ ps, p = []) →
      ps.foldl (wrapStep width fpfx npfx) st = st := by
  intro ps
  induction ps with
  | nil => intro st _; rfl
  | cons p rest ih =>
      intro st h
      have hp : p = [] := h p (by simp)
      subst hp
      simp only [List.foldl_cons]
      rw [show wrapStep width fpfx npfx st [] = st from by simp [wrapStep]]
      exact ih st fun q hq => h q (by simp [hq])

/-- Claim C10: if every token is empty (or there are no tokens), the result
is the single right-trimmed first prefix when that prefix contains a
non-whitespace character and the empty list otherwise; and in general a
residual accumulator holding only whitespace never produces a final line. -/
theorem claim_C10 (pieces : List (List Char)) (width : Int)
    (fpfx npfx : List Char) (hall : ∀ p ∈ pieces, p = []) :
    (wrap_pieces pieces width fpfx npfx =
      if fpfx.any (fun c => !pySpace c) then [pyRstrip fpfx] else [])
    ∧ ∀ (lines : List (List Char)) (cur : List Char),
        (∀ c ∈ cur, pySpace c) → wrapFinish (lines, cur) = lines := by
  constructor
  · rw [wrap_pieces, foldl_wrapStep_empty_pieces _ _ _ _ _ hall, wrapFinish]
    by_cases h : ∀ c ∈ fpfx, pySpace c
    · have h1 : pyStrip fpfx = [] := (pyStrip_eq_nil_iff fpfx).mpr h
      have h2 : fpfx.any (fun c => !pySpace c) = false := by
        simp only [List.any_eq_false]
        intro x hx
        simp [h x hx]
      simp [h1, h2]
    · have h1 : pyStrip fpfx ≠ [] := fun hc => h ((pyStrip_eq_nil_iff fpfx).mp hc)
      have h2 : fpfx.any (fun c => !pySpace c) = true := by
        simp only [List.any_eq_true]
        push_neg at h
        rcases h with ⟨c, hc, hw⟩
        exact ⟨c, hc, by simp [hw]⟩
      simp [h1, h2]
  · intro lines cur h
    rw [wrapFinish]
    simp [(pyStrip_eq_nil_iff cur).mpr h]

/-- Witness for claim C10 at concrete inputs. -/
theorem claim_C10_witness :
    (wrap_pieces [[], []] 5 "  x".data "zz".data =
      if "  x".data.any (fun c => !pySpace c) then [pyRstrip "  x".data] else [])
    ∧ wrapFinish (["a".data], " ".data) = ["a".data] :=
  ⟨(claim_C10 [[], []] 5 "  x".data "zz".data (by decide)).1,
    (claim_C10 [[], []] 5 "  x".data "zz".data (by decide)).2 ["a".data]
      " ".data (by decide)⟩

lemma pySpace_toNat {c : Char} (h : pySpace c = true) :
    c.toNat = 9 ∨ c.toNat = 10 ∨ c.toNat = 11 ∨ c.toNat = 12 ∨ c.toNat = 13 ∨
    (28 ≤ c.toNat ∧ c.toNat ≤ 31) ∨ c.toNat = 32 ∨ c.toNat = 133 ∨
    c.toNat = 160 ∨ c.toNat = 0x1680 ∨
    (0x2000 ≤ c.toNat ∧ c.toNat ≤ 0x200a) ∨ c.toNat = 0x2028 ∨
    c.toNat = 0x2029 ∨ c.toNat = 0x202f ∨ c.toNat = 0x205f ∨
    c.toNat = 0x3000 := by
  simp only [pySpace, Bool.or_eq_true, Bool.and_eq_true, decide_eq_true_eq,
    beq_iff_eq, Nat.beq_eq_true_eq] at h
  rcases h with (((((((((((h|h)|h)|h)|h)|h)|h)|h)|h)|h)|h)|h) <;> omega

lemma pySpace_not_special {c : Char} (h : pySpace c = true) :
    c ≠ '\x1b' ∧ c ≠ '[' ∧ c ≠ 'm' ∧ ansiParam c = false := by
  refine ⟨?_, ?_, ?_, ?_⟩
  · rintro rfl; revert h; decide
  · rintro rfl; revert h; decide
  · rintro rfl; revert h; decide
  · by_contra hp
    have hp2 : ansiParam c = true := by
      cases hq : ansiParam c
      · exact absurd hq hp
      · rfl
    simp only [ansiParam, Bool.or_eq_true, Bool.and_eq_true,
      decide_eq_true_eq, beq_iff_eq, Nat.beq_eq_true_eq] at hp2
    have hn := pySpace_toNat h
    rcases hp2 with hd | hsemi <;> omega

lemma ansiScan_flush_allspace (t : List Char) (ht : ∀ c ∈ t, pySpace c) :
    ∀ st : AnsiSt, ansiScan st t = ansiScan st [] ++ t := by
  induction t with
  | nil => intro st; simp
  | cons c t2 ih =>
      intro st
      have hc : pySpace c = true := ht c (by simp)
      obtain ⟨h1, h2, h3, h4⟩ := pySpace_not_special hc
      have ih2 := ih fun x hx => ht x (by simp [hx])
      cases st with
      | norm => simp [ansiScan, if_neg h1, ih2 AnsiSt.norm]
      | esc => simp [ansiScan, if_neg h1, if_neg h2, ih2 AnsiSt.norm]
      | par seen =>
          simp [ansiScan, if_neg h1, if_neg h3, h4, ih2 AnsiSt.norm]

lemma ansiScan_append_allspace (t : List Char) (ht : ∀ c ∈ t, pySpace c) :
    ∀ (a : List Char) (st : AnsiSt), ansiScan st (a ++ t) = ansiScan st a ++ t := by
  intro a
  induction a with
  | nil => intro st; simpa using ansiScan_flush_allspace t ht st
  | cons c a2 ih =>
      intro st
      cases st with
      | norm =>
          by_cases h : c = '\x1b' <;> simp [ansiScan, h, ih]
      | esc =>
          by_cases h : c = '['
          · simp [ansiScan, h, ih]
          · by_cases h2 : c = '\x1b' <;> simp [ansiScan, h, h2, ih]
      | par seen =>
          by_cases h : c = 'm'
          · simp [ansiScan, h, ih]
          · by_cases h2 : ansiParam c
            · simp [ansiScan, h, h2, ih]
            · by_cases h3 : c = '\x1b'
              · subst h3; simp [ansiScan, h, h2, ih]
              · simp [ansiScan, h, h2, h3, ih]

lemma stripAnsi_append_allspace (a t : List Char) (ht : ∀ c ∈ t, pySpace c) :
    stripAnsi (a ++ t) = stripAnsi a ++ t :=
  ansiScan_append_allspace t ht a AnsiSt.norm

lemma strip_ansi_len_append_allspace (a t : List Char) (ht : ∀ c ∈ t, pySpace c) :
    strip_ansi_len (a ++ t) = strip_ansi_len a + t.length := by
  simp [strip_ansi_len, stripAnsi_append_allspace a t ht]

lemma pyRstrip_decompose (s : List Char) :
    ∃ t, s = pyRstrip s ++ t ∧ ∀ c ∈ t, pySpace c := by
  have key : s.reverse =
      s.reverse.takeWhile pySpace ++ s.reverse.dropWhile pySpace :=
    (List.takeWhile_append_dropWhile pySpace s.reverse).symm
  have hs : s = (s.reverse.dropWhile pySpace).reverse ++
      (s.reverse.takeWhile pySpace).reverse := by
    conv_lhs => rw [← s.reverse_reverse, key]
    rw [List.reverse_append]
  exact ⟨_, hs, fun c hc => List.mem_takeWhile_imp (List.mem_reverse.mp hc)⟩

lemma strip_ansi_len_rstrip_le (s : List Char) :
    strip_ansi_len (pyRstrip s) ≤ strip_ansi_len s := by
  obtain ⟨t, hs, ht⟩ := pyRstrip_decompose s
  conv_rhs => rw [hs]
  rw [strip_ansi_len_append_allspace _ _ ht]
  exact Nat.le_add_right _ _

lemma filter_nonspace_allspace {t : List Char} (ht : ∀ c ∈ t, pySpace c) :
    t.filter (fun c => !pySpace c) = [] := by
  rw [List.filter_eq_nil_iff]
  intro c hc
  simp [ht c hc]

lemma filter_nonspace_rstrip (s : List Char) :
    (pyRstrip s).filter (fun c => !pySpace c) = s.filter (fun c => !pySpace c) := by
  obtain ⟨t, hs, ht⟩ := pyRstrip_decompose s
  conv_rhs => rw [hs]
  rw [List.filter_append, filter_nonspace_allspace ht, List.append_nil]

lemma filter_nonspace_lstrip (s : List Char) :
    (pyLstrip s).filter (fun c => !pySpace c) = s.filter (fun c => !pySpace c) := by
  conv_rhs => rw [← List.takeWhile_append_dropWhile pySpace s]
  rw [List.filter_append,
    filter_nonspace_allspace fun c hc => List.mem_takeWhile_imp hc]
  rfl

lemma containedIn_append_left {a t : List Char} (u : List Char)
    (h : containedIn a t) : containedIn a (u ++ t) := by
  obtain ⟨x, y, rfl⟩ := h
  exact ⟨u ++ x, y, by simp⟩

lemma containedIn_append_right {a t : List Char} (u : List Char)
    (h : containedIn a t) : containedIn a (t ++ u) := by
  obtain ⟨x, y, rfl⟩ := h
  exact ⟨x, y ++ u, by simp⟩

lemma pyLstrip_decompose (s : List Char) :
    ∃ t, s = t ++ pyLstrip s ∧ ∀ c ∈ t, pySpace c :=
  ⟨s.takeWhile pySpace, (List.takeWhile_append_dropWhile pySpace s).symm,
    fun _ hc => List.mem_takeWhile_imp hc⟩

lemma containedIn_pyStrip_lstrip (p : List Char) :
    containedIn (pyStrip p) (pyLstrip p) := by
  obtain ⟨t, hs, _⟩ := pyRstrip_decompose (pyLstrip p)
  exact ⟨[], t, by simpa [pyStrip] using hs⟩

lemma containedIn_pyStrip_self (p : List Char) : containedIn (pyStrip p) p := by
  obtain ⟨t0, hp, _⟩ := pyLstrip_decompose p
  obtain ⟨x, y, hl⟩ := containedIn_pyStrip_lstrip p
  refine ⟨t0 ++ x, y, ?_⟩
  conv_lhs => rw [hp]
  rw [hl]
  simp

lemma containedIn_mem {a b : List Char} {c : Char}
    (h : containedIn a b) (hc : c ∈ a) : c ∈ b := by
  obtain ⟨x, y, rfl⟩ := h
  simp [hc]

lemma dropWhile_cons_head {α : Type} {p : α → Bool} {l : List α} {c : α}
    {d : List α} (hd : l.dropWhile p = c :: d) : p c = false := by
  induction l with
  | nil => simp at hd
  | cons a tl ih =>
      rw [List.dropWhile_cons] at hd
      by_cases h : p a = true
      · rw [if_pos h] at hd
        exact ih hd
      · rw [if_neg h] at hd
        injection hd with h1 _
        subst h1
        simpa using h

lemma pyRstrip_last_decompose (s : List Char) (h : pyRstrip s ≠ []) :
    ∃ s0 cl, pyRstrip s = s0 ++ [cl] ∧ pySpace cl = false := by
  cases hd : s.reverse.dropWhile pySpace with
  | nil =>
      exfalso
      apply h
      unfold pyRstrip
      rw [hd]
      rfl
  | cons c d =>
      refine ⟨d.reverse, c, ?_, dropWhile_cons_head hd⟩
      unfold pyRstrip
      rw [hd]
      simp

lemma pyStrip_last_decompose (p : List Char) (h : pyStrip p ≠ []) :
    ∃ s0 cl, pyStrip p = s0 ++ [cl] ∧ pySpace cl = false := by
  unfold pyStrip at *
  exact pyRstrip_last_decompose (pyLstrip p) h

lemma containedIn_pyRstrip {s0 : List Char} {cl : Char} {t : List Char}
    (hcl : pySpace cl = false) (h : containedIn (s0 ++ [cl]) t) :
    containedIn (s0 ++ [cl]) (pyRstrip t) := by
  obtain ⟨x, y, rfl⟩ := h
  unfold pyRstrip
  have hrev : (x ++ (s0 ++ [cl]) ++ y).reverse =
      y.reverse ++ (cl :: (s0.reverse ++ x.reverse)) := by
    simp
  rw [hrev, List.dropWhile_append]
  by_cases hy : ((y.reverse.dropWhile pySpace).isEmpty : Prop)
  · rw [if_pos hy, List.dropWhile_cons, if_neg (by simp [hcl])]
    refine ⟨x, [], ?_⟩
    simp
  · rw [if_neg hy]
    refine ⟨x, (y.reverse.dropWhile pySpace).reverse, ?_⟩
    rw [List.reverse_append]
    simp

lemma nonspace_mem_strip_ne_nil {s cur : List Char}
    (h : containedIn s cur) (hs : ∃ c ∈ s, pySpace c = false) :
    pyStrip cur ≠ [] := by
  intro hc
  obtain ⟨c, hcs, hcw⟩ := hs
  have := (pyStrip_eq_nil_iff cur).mp hc c (containedIn_mem h hcs)
  rw [this] at hcw
  cases hcw

lemma containedIn_strip_pyRstrip {p t : List Char} (hs : pyStrip p ≠ [])
    (h : containedIn (pyStrip p) t) : containedIn (pyStrip p) (pyRstrip t) := by
  obtain ⟨s0, cl, hdec, hcl⟩ := pyStrip_last_decompose p hs
  rw [hdec] at h ⊢
  exact containedIn_pyRstrip hcl h

lemma wrapStep_nil (width : Int) (fpfx npfx : List Char)
    (st : List (List Char) × List Char) :
    wrapStep width fpfx npfx st [] = st := by
  simp [wrapStep]

lemma wrapStep_accept (width : Int) (fpfx npfx : List Char)
    (lines : List (List Char)) (cur p : List Char) (hp : p ≠ [])
    (hacc : (strip_ansi_len (cur ++ p) : Int) ≤ width ∨
      strip_ansi_len cur ≤ strip_ansi_len fpfx) :
    wrapStep width fpfx npfx (lines, cur) p = (lines, cur ++ p) := by
  unfold wrapStep
  rw [if_neg hp]
  dsimp only
  rw [if_pos hacc]

lemma wrapStep_break_keep (width : Int) (fpfx npfx : List Char)
    (lines : List (List Char)) (cur p : List Char) (hp : p ≠ [])
    (hacc : ¬((strip_ansi_len (cur ++ p) : Int) ≤ width ∨
      strip_ansi_len cur ≤ strip_ansi_len fpfx))
    (hforce : ¬width < (strip_ansi_len (npfx ++ pyLstrip p) : Int)) :
    wrapStep width fpfx npfx (lines, cur) p =
      (lines ++ [pyRstrip cur], npfx ++ pyLstrip p) := by
  unfold wrapStep
  rw [if_neg hp]
  dsimp only
  rw [if_neg hacc, if_neg hforce]

lemma wrapStep_break_force (width : Int) (fpfx npfx : List Char)
    (lines : List (List Char)) (cur p : List Char) (hp : p ≠ [])
    (hacc : ¬((strip_ansi_len (cur ++ p) : Int) ≤ width ∨
      strip_ansi_len cur ≤ strip_ansi_len fpfx))
    (hforce : width < (strip_ansi_len (npfx ++ pyLstrip p) : Int)) :
    wrapStep width fpfx npfx (lines, cur) p =
      (lines ++ [pyRstrip cur] ++ [pyRstrip (npfx ++ pyLstrip p)], npfx) := by
  unfold wrapStep
  rw [if_neg hp]
  dsimp only
  rw [if_neg hacc, if_pos hforce]

lemma nonWs_append (a b : List Char) : nonWs (a ++ b) = nonWs a ++ nonWs b :=
  List.filter_append _ _

lemma nonWs_allspace {t : List Char} (ht : ∀ c ∈ t, pySpace c) : nonWs t = [] :=
  filter_nonspace_allspace ht

lemma nonWs_rstrip (s : List Char) : nonWs (pyRstrip s) = nonWs s :=
  filter_nonspace_rstrip s

lemma nonWs_lstrip (s : List Char) : nonWs (pyLstrip s) = nonWs s :=
  filter_nonspace_lstrip s

lemma content_step (width : Int) (fpfx npfx : List Char)
    (hn : ∀ c ∈ npfx, pySpace c)
    (st : List (List Char) × List Char) (p : List Char) :
    nonWs ((wrapStep width fpfx npfx st p).1.flatten ++
      (wrapStep width fpfx npfx st p).2) =
      nonWs (st.1.flatten ++ st.2) ++ nonWs p := by
  obtain ⟨lines, cur⟩ := st
  by_cases hp : p = []
  · subst hp
    rw [wrapStep_nil]
    simp [nonWs]
  · by_cases hacc : (strip_ansi_len (cur ++ p) : Int) ≤ width ∨
        strip_ansi_len cur ≤ strip_ansi_len fpfx
    · rw [wrapStep_accept _ _ _ _ _ _ hp hacc]
      simp [nonWs_append, List.append_assoc]
    · by_cases hforce : width < (strip_ansi_len (npfx ++ pyLstrip p) : Int)
      · rw [wrapStep_break_force _ _ _ _ _ _ hp hacc hforce]
        simp only [List.flatten_append, List.flatten_cons, List.flatten_nil,
          List.append_nil, nonWs_append, nonWs_rstrip, nonWs_lstrip,
          nonWs_allspace hn, List.append_assoc, List.nil_append]
      · rw [wrapStep_break_keep _ _ _ _ _ _ hp hacc hforce]
        simp only [List.flatten_append, List.flatten_cons, List.flatten_nil,
          List.append_nil, nonWs_append, nonWs_rstrip, nonWs_lstrip,
          nonWs_allspace hn, List.append_assoc, List.nil_append]

lemma content_foldl (width : Int) (fpfx npfx : List Char)
    (hn : ∀ c ∈ npfx, pySpace c) :
    ∀ (ps : List (List Char)) (st : List (List Char) × List Char),
      nonWs ((ps.foldl (wrapStep width fpfx npfx) st).1.flatten ++
        (ps.foldl (wrapStep width fpfx npfx) st).2) =
        nonWs (st.1.flatten ++ st.2) ++ nonWs ps.flatten := by
  intro ps
  induction ps with
  | nil => intro st; simp [nonWs]
  | cons p rest ih =>
      intro st
      simp only [List.foldl_cons, List.flatten_cons]
      rw [ih, content_step width fpfx npfx hn st p, nonWs_append,
        List.append_assoc, nonWs_append]

lemma placed_step_preserve (width : Int) (fpfx npfx : List Char) {p : List Char}
    (hs : pyStrip p ≠ []) (st : List (List Char) × List Char) (q : List Char)
    (h : (∃ l ∈ st.1, containedIn (pyStrip p) l) ∨ containedIn (pyStrip p) st.2) :
    (∃ l ∈ (wrapStep width fpfx npfx st q).1, containedIn (pyStrip p) l) ∨
      containedIn (pyStrip p) (wrapStep width fpfx npfx st q).2 := by
  obtain ⟨lines, cur⟩ := st
  by_cases hq : q = []
  · subst hq; rw [wrapStep_nil]; exact h
  · by_cases hacc : (strip_ansi_len (cur ++ q) : Int) ≤ width ∨
        strip_ansi_len cur ≤ strip_ansi_len fpfx
    · rw [wrapStep_accept _ _ _ _ _ _ hq hacc]
      rcases h with ⟨l, hl, hc⟩ | hc
      · exact Or.inl ⟨l, hl, hc⟩
      · exact Or.inr (containedIn_append_right q hc)
    · by_cases hforce : width < (strip_ansi_len (npfx ++ pyLstrip q) : Int)
      · rw [wrapStep_break_force _ _ _ _ _ _ hq hacc hforce]
        rcases h with ⟨l, hl, hc⟩ | hc
        · exact Or.inl ⟨l, by simp [hl], hc⟩
        · exact Or.inl ⟨pyRstrip cur, by simp, containedIn_strip_pyRstrip hs hc⟩
      · rw [wrapStep_break_keep _ _ _ _ _ _ hq hacc hforce]
        rcases h with ⟨l, hl, hc⟩ | hc
        · exact Or.inl ⟨l, by simp [hl], hc⟩
        · exact Or.inl ⟨pyRstrip cur, by simp, containedIn_strip_pyRstrip hs hc⟩

lemma placed_foldl (width : Int) (fpfx npfx : List Char) {p : List Char}
    (hs : pyStrip p ≠ []) :
    ∀ (post : List (List Char)) (st : List (List Char) × List Char),
      ((∃ l ∈ st.1, containedIn (pyStrip p) l) ∨ containedIn (pyStrip p) st.2) →
      ((∃ l ∈ (post.foldl (wrapStep width fpfx npfx) st).1,
          containedIn (pyStrip p) l) ∨
        containedIn (pyStrip p) (post.foldl (wrapStep width fpfx npfx) st).2) := by
  intro post
  induction post with
  | nil => intro st h; exact h
  | cons q rest ih =>
      intro st h
      exact ih _ (placed_step_preserve width fpfx npfx hs st q h)

lemma placed_self_step (width : Int) (fpfx npfx : List Char) {p : List Char}
    (hs : pyStrip p ≠ []) (lines : List (List Char)) (cur : List Char) :
    (∃ l ∈ (wrapStep width fpfx npfx (lines, cur) p).1,
      containedIn (pyStrip p) l) ∨
      containedIn (pyStrip p) (wrapStep width fpfx npfx (lines, cur) p).2 := by
  have hpne : p ≠ [] := by rintro rfl; exact hs rfl
  by_cases hacc : (strip_ansi_len (cur ++ p) : Int) ≤ width ∨
      strip_ansi_len cur ≤ strip_ansi_len fpfx
  · rw [wrapStep_accept _ _ _ _ _ _ hpne hacc]
    exact Or.inr (containedIn_append_left cur (containedIn_pyStrip_self p))
  · have hcur1 : containedIn (pyStrip p) (npfx ++ pyLstrip p) :=
      containedIn_append_left npfx (containedIn_pyStrip_lstrip p)
    by_cases hforce : width < (strip_ansi_len (npfx ++ pyLstrip p) : Int)
    · rw [wrapStep_break_force _ _ _ _ _ _ hpne hacc hforce]
      exact Or.inl ⟨pyRstrip (npfx ++ pyLstrip p), by simp,
        containedIn_strip_pyRstrip hs hcur1⟩
    · rw [wrapStep_break_keep _ _ _ _ _ _ hpne hacc hforce]
      exact Or.inr hcur1

lemma placed_finish {p : List Char} (hs : pyStrip p ≠ [])
    (st : List (List Char) × List Char)
    (h : (∃ l ∈ st.1, containedIn (pyStrip p) l) ∨
      containedIn (pyStrip p) st.2) :
    ∃ l, l ∈ wrapFinish st ∧ containedIn (pyStrip p) l := by
  rcases h with ⟨l, hl, hc⟩ | hc
  · refine ⟨l, ?_, hc⟩
    unfold wrapFinish
    by_cases hcond : pyStrip st.2 ≠ []
    · rw [if_pos hcond]; exact List.mem_append_left _ hl
    · rw [if_neg hcond]; exact hl
  · have hne : pyStrip st.2 ≠ [] := by
      obtain ⟨s0, cl, hdec, hcl⟩ := pyStrip_last_decompose p hs
      exact nonspace_mem_strip_ne_nil hc ⟨cl, by rw [hdec]; simp, hcl⟩
    refine ⟨pyRstrip st.2, ?_, containedIn_strip_pyRstrip hs hc⟩
    unfold wrapFinish
    rw [if_pos hne]
    simp

lemma placed_lemma (ps : List (List Char)) (width : Int) (fpfx npfx : List Char)
    {p : List Char} (hp : p ∈ ps) (hs : pyStrip p ≠ []) :
    ∃ l, l ∈ wrap_pieces ps width fpfx npfx ∧ containedIn (pyStrip p) l := by
  obtain ⟨pre, post, rfl⟩ := List.append_of_mem hp
  unfold wrap_pieces
  rw [List.foldl_append, List.foldl_cons]
  exact placed_finish hs _
    (placed_foldl width fpfx npfx hs post _
      (placed_self_step width fpfx npfx hs _ _))

lemma wrap_content (ps : List (List Char)) (width : Int) (fpfx npfx : List Char)
    (hf : ∀ c ∈ fpfx, pySpace c) (hn : ∀ c ∈ npfx, pySpace c) :
    nonWs (wrap_pieces ps width fpfx npfx).flatten = nonWs ps.flatten := by
  unfold wrap_pieces wrapFinish
  have hc := content_foldl width fpfx npfx hn ps ([], fpfx)
  simp only [List.flatten_nil, List.nil_append, nonWs_allspace hf] at hc
  set st := ps.foldl (wrapStep width fpfx npfx) ([], fpfx) with hst
  by_cases hstrip : pyStrip st.2 ≠ []
  · rw [if_pos hstrip]
    rw [List.flatten_append, List.flatten_cons, List.flatten_nil,
      List.append_nil, nonWs_append, nonWs_rstrip, ← nonWs_append, hc]
  · rw [if_neg hstrip]
    push_neg at hstrip
    have h2 : nonWs st.2 = [] :=
      nonWs_allspace ((pyStrip_eq_nil_iff st.2).mp hstrip)
    rw [← hc, nonWs_append, h2, List.append_nil]

lemma lineOK_of_curOK {width : Int} {fpfx npfx : List Char}
    {ps0 : List (List Char)} {cur : List Char}
    (h : curOK width fpfx npfx ps0 cur) :
    lineOK width fpfx npfx ps0 (pyRstrip cur) := by
  rcases h with h | h | h | ⟨c0, p, hp, hlen, rfl⟩
  · left
    calc (strip_ansi_len (pyRstrip cur) : Int) ≤ strip_ansi_len cur := by
          exact_mod_cast strip_ansi_len_rstrip_le cur
      _ ≤ width := h
  · subst h; right; right; right; left; rfl
  · subst h; right; right; right; right; rfl
  · right; left; exact ⟨c0, p, hp, hlen, rfl⟩

lemma wrap_inv_step {width : Int} {fpfx npfx : List Char}
    {ps0 : List (List Char)} (st : List (List Char) × List Char)
    (p : List Char) (hp : p ∈ ps0)
    (hl : ∀ l ∈ st.1, lineOK width fpfx npfx ps0 l)
    (hc : curOK width fpfx npfx ps0 st.2) :
    (∀ l ∈ (wrapStep width fpfx npfx st p).1, lineOK width fpfx npfx ps0 l) ∧
      curOK width fpfx npfx ps0 (wrapStep width fpfx npfx st p).2 := by
  obtain ⟨lines, cur⟩ := st
  by_cases hpe : p = []
  · subst hpe; rw [wrapStep_nil]; exact ⟨hl, hc⟩
  · by_cases hacc : (strip_ansi_len (cur ++ p) : Int) ≤ width ∨
        strip_ansi_len cur ≤ strip_ansi_len fpfx
    · rw [wrapStep_accept _ _ _ _ _ _ hpe hacc]
      refine ⟨hl, ?_⟩
      rcases hacc with hacc | hacc
      · exact Or.inl hacc
      · exact Or.inr (Or.inr (Or.inr ⟨cur, p, hp, hacc, rfl⟩))
    · by_cases hforce : width < (strip_ansi_len (npfx ++ pyLstrip p) : Int)
      · rw [wrapStep_break_force _ _ _ _ _ _ hpe hacc hforce]
        refine ⟨?_, Or.inr (Or.inr (Or.inl rfl))⟩
        intro l hlmem
        rcases List.mem_append.mp hlmem with hmem | hmem
        · rcases List.mem_append.mp hmem with hmem2 | hmem2
          · exact hl l hmem2
          · rw [List.mem_singleton.mp hmem2]
            exact lineOK_of_curOK hc
        · rw [List.mem_singleton.mp hmem]
          exact Or.inr (Or.inr (Or.inl ⟨p, hp, rfl⟩))
      · rw [wrapStep_break_keep _ _ _ _ _ _ hpe hacc hforce]
        refine ⟨?_, Or.inl (not_lt.mp hforce)⟩
        intro l hlmem
        rcases List.mem_append.mp hlmem with hmem | hmem
        · exact hl l hmem
        · rw [List.mem_singleton.mp hmem]
          exact lineOK_of_curOK hc

lemma wrap_inv_foldl (width : Int) (fpfx npfx : List Char)
    (ps0 : List (List Char)) :
    ∀ ps : List (List Char), (∀ p ∈ ps, p ∈ ps0) →
    ∀ st : List (List Char) × List Char,
      (∀ l ∈ st.1, lineOK width fpfx npfx ps0 l) →
      curOK width fpfx npfx ps0 st.2 →
      (∀ l ∈ (ps.foldl (wrapStep width fpfx npfx) st).1,
        lineOK width fpfx npfx ps0 l) ∧
        curOK width fpfx npfx ps0 (ps.foldl (wrapStep width fpfx npfx) st).2 := by
  intro ps
  induction ps with
  | nil => intro _ st hl hc; exact ⟨hl, hc⟩
  | cons p rest ih =>
      intro hmem st hl hc
      have hstep := wrap_inv_step st p (hmem p (by simp)) hl hc
      exact ih (fun q hq => hmem q (by simp [hq])) _ hstep.1 hstep.2

/-- Claim C2 is false as stated: at width 5, first prefix four spaces and
empty continuation prefix, every token has visible length 2 ≤ 5 yet the
emitted line "    ab" has visible length 6 > 5 — an over-width line whose
single token does not itself exceed the width. -/
theorem claim_C2_counterexample :
    wrap_pieces ["ab".data, "cd".data] 5 "    ".data [] =
      ["    ab".data, "cd".data]
    ∧ strip_ansi_len "ab".data ≤ 5 ∧ strip_ansi_len "cd".data ≤ 5
    ∧ ¬((strip_ansi_len "    ab".data : Int) ≤ 5) :=
  ⟨by decide, by decide, by decide, by decide⟩

/-- Claim C2 (amended): every emitted line has visible length at most the
width, except possibly a line that is the right-trimmed form of: an
accumulator of visible length at most the first prefix's followed by a
single token (the progress rule), the continuation prefix followed by one
left-trimmed token (a forced over-width token line), or a bare prefix. -/
theorem claim_C2_amended (ps : List (List Char)) (width : Int)
    (fpfx npfx : List Char) :
    ∀ l ∈ wrap_pieces ps width fpfx npfx, lineOK width fpfx npfx ps l := by
  intro l hl
  have hinv := wrap_inv_foldl width fpfx npfx ps ps (fun _ hp => hp) ([], fpfx)
    (by intro x hx; simp at hx) (Or.inr (Or.inl rfl))
  rw [wrap_pieces, wrapFinish] at hl
  by_cases hcond :
      pyStrip (ps.foldl (wrapStep width fpfx npfx) ([], fpfx)).2 ≠ []
  · rw [if_pos hcond] at hl
    rcases List.mem_append.mp hl with h | h
    · exact hinv.1 l h
    · rw [List.mem_singleton.mp h]
      exact lineOK_of_curOK hinv.2
  · rw [if_neg hcond] at hl
    exact hinv.1 l hl

/-- Witness for claim C2 at a concrete input: the over-width line "    ab"
is of the progress-rule shape. -/
theorem claim_C2_amended_witness :
    lineOK 5 "    ".data [] ["ab".data, "cd".data] "    ab".data :=
  claim_C2_amended ["ab".data, "cd".data] 5 "    ".data [] "    ab".data
    (by decide)

/-- Claim C3 is false as stated: at width 0, first prefix "XXXX" and empty
continuation prefix, the scan reaches the state with accumulator "c" — which
holds a token, not merely the current line's prefix — and the next token "d"
is nevertheless appended although the candidate "cd" exceeds the width
budget; so non-empty tokens are not appended exactly under the claimed
condition. -/
theorem claim_C3_counterexample :
    List.foldl (wrapStep 0 "XXXX".data []) ([], "XXXX".data)
        ["aaaaa".data, "b".data, "c".data] =
      (["XXXXaaaaa".data, "b".data], "c".data)
    ∧ wrapStep 0 "XXXX".data [] ((["XXXXaaaaa".data, "b".data] :
        List (List Char)), "c".data) "d".data =
        (["XXXXaaaaa".data, "b".data], "cd".data)
    ∧ ¬((strip_ansi_len "cd".data : Int) ≤ 0)
    ∧ "c".data ≠ "XXXX".data ∧ "c".data ≠ ([] : List Char)
    ∧ wrap_pieces ["aaaaa".data, "b".data, "c".data, "d".data] 0
        "XXXX".data [] = ["XXXXaaaaa".data, "b".data, "cd".data] :=
  ⟨by decide, by decide, by decide, by decide, by decide, by decide⟩

/-- Claim C3 (amended): a non-empty token is appended to the accumulator
exactly when the candidate's visible length is within the width budget or
the accumulator's visible length is at most the first prefix's visible
length; consequently every token with non-whitespace content has that
content placed, unsplit, on some emitted line — even when the token alone
exceeds the width. -/
theorem claim_C3_amended :
    (∀ (width : Int) (fpfx npfx : List Char) (lines : List (List Char))
        (cur p : List Char), p ≠ [] →
      (wrapStep width fpfx npfx (lines, cur) p = (lines, cur ++ p) ↔
        ((strip_ansi_len (cur ++ p) : Int) ≤ width ∨
          strip_ansi_len cur ≤ strip_ansi_len fpfx)))
    ∧ ∀ (ps : List (List Char)) (width : Int) (fpfx npfx p : List Char),
        p ∈ ps → pyStrip p ≠ [] →
        ∃ l, l ∈ wrap_pieces ps width fpfx npfx ∧ containedIn (pyStrip p) l := by
  constructor
  · intro width fpfx npfx lines cur p hp
    constructor
    · intro heq
      by_contra hacc
      by_cases hforce : width < (strip_ansi_len (npfx ++ pyLstrip p) : Int)
      · rw [wrapStep_break_force _ _ _ _ _ _ hp hacc hforce] at heq
        have hlen := congrArg (fun q => q.1.length) heq
        simp at hlen
      · rw [wrapStep_break_keep _ _ _ _ _ _ hp hacc hforce] at heq
        have hlen := congrArg (fun q => q.1.length) heq
        simp at hlen
    · intro hacc
      exact wrapStep_accept _ _ _ _ _ _ hp hacc
  · intro ps width fpfx npfx p hp hs
    exact placed_lemma ps width fpfx npfx hp hs

/-- Witness for claim C3 at concrete inputs. -/
theorem claim_C3_amended_witness :
    (wrapStep 10 [] [] ([], "a".data) "b".data = ([], "a".data ++ "b".data) ↔
      ((strip_ansi_len ("a".data ++ "b".data) : Int) ≤ 10 ∨
        strip_ansi_len "a".data ≤ strip_ansi_len ([] : List Char)))
    ∧ ∃ l, l ∈ wrap_pieces ["zz".data] 5 [] [] ∧
        containedIn (pyStrip "zz".data) l :=
  ⟨claim_C3_amended.1 10 [] [] [] "a".data "b".data (by decide),
    claim_C3_amended.2 ["zz".data] 5 [] [] "zz".data (by decide) (by decide)⟩

/-- Claim C1 is false as stated: with width 4 and empty prefixes, the
non-empty whitespace token "  " is dropped entirely, so concatenating the
emitted lines does not reproduce every non-empty token. -/
theorem claim_C1_counterexample :
    wrap_pieces ["AAAA".data, "  ".data, "BBBB".data] 4 [] [] =
      ["AAAA".data, "BBBB".data]
    ∧ (wrap_pieces ["AAAA".data, "  ".data, "BBBB".data] 4 [] []).flatten ≠
        (["AAAA".data, "  ".data, "BBBB".data] : List (List Char)).flatten
    ∧ "  ".data ≠ ([] : List Char) :=
  ⟨by decide, by decide, by decide⟩

/-- Claim C1 (amended): for whitespace-only prefixes, concatenating the
emitted lines reproduces exactly the sequence of non-whitespace characters
of the tokens, once and in order (whitespace-only tokens may vanish and
token-edge whitespace may be trimmed at line boundaries), and the trimmed
content of every token appears contiguously — never split — inside a single
emitted line. -/
theorem claim_C1_amended (ps : List (List Char)) (width : Int)
    (fpfx npfx : List Char) (hf : ∀ c ∈ fpfx, pySpace c)
    (hn : ∀ c ∈ npfx, pySpace c) :
    nonWs (wrap_pieces ps width fpfx npfx).flatten = nonWs ps.flatten
    ∧ ∀ p ∈ ps, pyStrip p ≠ [] →
        ∃ l, l ∈ wrap_pieces ps width fpfx npfx ∧ containedIn (pyStrip p) l :=
  ⟨wrap_content ps width fpfx npfx hf hn,
    fun _ hp hs => placed_lemma ps width fpfx npfx hp hs⟩

/-- Witness for claim C1 at a concrete input. -/
theorem claim_C1_amended_witness :
    nonWs (wrap_pieces ["AA".data, " ".data, "BB".data] 3 " ".data "  ".data).flatten =
      nonWs (["AA".data, " ".data, "BB".data] : List (List Char)).flatten
    ∧ ∃ l, l ∈ wrap_pieces ["AA".data, " ".data, "BB".data] 3 " ".data "  ".data ∧
        containedIn (pyStrip "AA".data) l :=
  ⟨(claim_C1_amended ["AA".data, " ".data, "BB".data] 3 " ".data "  ".data
      (by decide) (by decide)).1,
    (claim_C1_amended ["AA".data, " ".data, "BB".data] 3 " ".data "  ".data
      (by decide) (by decide)).2 "AA".data (by decide) (by decide)⟩

lemma ansiScan_norm_no_esc :
    ∀ {s : List Char}, (∀ c ∈ s, c ≠ '\x1b') →
      ansiScan AnsiSt.norm s = s := by
  intro s
  induction s with
  | nil => intro _; rfl
  | cons c rest ih =>
      intro h
      have hc : c ≠ '\x1b' := h c (by simp)
      simp only [ansiScan, if_neg hc]
      rw [ih fun x hx => h x (by simp [hx])]

lemma strip_ansi_len_no_esc {s : List Char} (h : ∀ c ∈ s, c ≠ '\x1b') :
    strip_ansi_len s = s.length := by
  simp [strip_ansi_len, stripAnsi, ansiScan_norm_no_esc h]

lemma pyLstrip_ne_nil {s : List Char} (h : ∃ c ∈ s, pySpace c = false) :
    pyLstrip s ≠ [] := by
  intro hc
  obtain ⟨c, hcs, hw⟩ := h
  rw [List.dropWhile_eq_nil_iff.mp hc c hcs] at hw
  cases hw

lemma alt_fold (width : Int) (hw : width ≤ 0) :
    ∀ ps : List (List Char),
      (∀ p ∈ ps, (∀ c ∈ p, c ≠ '\x1b') ∧ ∃ c ∈ p, pySpace c = false) →
      ∀ lines0 : List (List Char),
        wrapFinish (ps.foldl (wrapStep width [] []) (lines0, [])) =
          lines0 ++ altLines ps := by
  intro ps
  induction ps using altLines.induct with
  | case1 =>
      intro _ lines0
      simp [wrapFinish, altLines, pyStrip, pyLstrip, pyRstrip]
  | case2 t =>
      intro h lines0
      obtain ⟨hesc, hnws⟩ := h t (by simp)
      have htne : t ≠ [] := by
        rintro rfl
        obtain ⟨c, hc, _⟩ := hnws
        simp at hc
      simp only [List.foldl_cons, List.foldl_nil]
      rw [wrapStep_accept _ _ _ _ _ _ htne (Or.inr le_rfl), List.nil_append]
      have hstrip : pyStrip t ≠ [] := by
        intro hc
        obtain ⟨c, hcm, hcw⟩ := hnws
        rw [(pyStrip_eq_nil_iff t).mp hc c hcm] at hcw
        cases hcw
      unfold wrapFinish
      simp [hstrip, altLines]
  | case3 t u rest ih =>
      intro h lines0
      obtain ⟨hesct, hnwst⟩ := h t (by simp)
      obtain ⟨hescu, hnwsu⟩ := h u (by simp)
      have htne : t ≠ [] := by
        rintro rfl
        obtain ⟨c, hc, _⟩ := hnwst
        simp at hc
      have hune : u ≠ [] := by
        rintro rfl
        obtain ⟨c, hc, _⟩ := hnwsu
        simp at hc
      have htpos : 0 < t.length := List.length_pos.mpr htne
      have hupos : 0 < u.length := List.length_pos.mpr hune
      simp only [List.foldl_cons]
      rw [wrapStep_accept _ _ _ _ _ _ htne (Or.inr le_rfl), List.nil_append]
      have htu : strip_ansi_len (t ++ u) = t.length + u.length := by
        rw [strip_ansi_len_no_esc (by
          intro c hc
          rcases List.mem_append.mp hc with h1 | h1
          · exact hesct c h1
          · exact hescu c h1), List.length_append]
      have hlt : strip_ansi_len t = t.length := strip_ansi_len_no_esc hesct
      have hacc2 : ¬((strip_ansi_len (t ++ u) : Int) ≤ width ∨
          strip_ansi_len t ≤ strip_ansi_len ([] : List Char)) := by
        push_neg
        constructor
        · rw [htu]
          push_cast
          omega
        · rw [hlt]
          exact htpos
      have hforce : width <
          (strip_ansi_len (([] : List Char) ++ pyLstrip u) : Int) := by
        have hlu : ∀ c ∈ pyLstrip u, c ≠ '\x1b' := fun c hc =>
          hescu c ((List.dropWhile_sublist _).mem hc)
        rw [List.nil_append, strip_ansi_len_no_esc hlu]
        have h2 : 0 < (pyLstrip u).length :=
          List.length_pos.mpr (pyLstrip_ne_nil hnwsu)
        omega
      rw [wrapStep_break_force _ _ _ _ _ _ hune hacc2 hforce]
      rw [ih (fun q hq => h q (by simp [hq])) _]
      simp [altLines, List.append_assoc, List.nil_append]

/-- Claim C4 is false as stated: at width 0 the tokens are not all emitted
on lines of their own — with an ANSI-only token the three non-empty tokens
produce only two lines (the invisible token shares a line with "x"), and
with a long first prefix the tokens "c" and "d" end up sharing the line
"cd". -/
theorem claim_C4_counterexample :
    wrap_pieces ["\x1b[0m".data, "x".data, "y".data] 0 [] [] =
      ["\x1b[0mx".data, "y".data]
    ∧ (["\x1b[0m".data, "x".data, "y".data].filter
        (fun p => !p.isEmpty)).length = 3
    ∧ (wrap_pieces ["\x1b[0m".data, "x".data, "y".data] 0 [] []).length = 2
    ∧ wrap_pieces ["aaaaa".data, "b".data, "c".data, "d".data] 0
        "XXXX".data [] = ["XXXXaaaaa".data, "b".data, "cd".data] :=
  ⟨by decide, by decide, by decide, by decide⟩

/-- Claim C4 (amended): wrap_pieces is a total function (it is modelled by a
total Lean function), and for every zero or negative width, with empty
prefixes and tokens that are free of the ESC character and each contain a
non-whitespace character, every token is emitted on a line of its own — the
output is exactly one trimmed line per token, so no two such tokens ever
share a line. -/
theorem claim_C4_amended (width : Int) (hw : width ≤ 0)
    (ps : List (List Char))
    (h : ∀ p ∈ ps, (∀ c ∈ p, c ≠ '\x1b') ∧ ∃ c ∈ p, pySpace c = false) :
    wrap_pieces ps width [] [] = altLines ps := by
  unfold wrap_pieces
  simpa using alt_fold width hw ps h []

/-- Witness for claim C4 at a concrete input. -/
theorem claim_C4_amended_witness :
    wrap_pieces ["aa ".data, " bb".data, "cc".data] (-3) [] [] =
      altLines ["aa ".data, " bb".data, "cc".data] :=
  claim_C4_amended (-3) (by decide) ["aa ".data, " bb".data, "cc".data]
    (by decide)
